import Mathlib

/-!
Verification of the spreadsheet-enrichment pipeline (`agent_executor.py`).

The Python source is shallowly embedded below.  Conventions used throughout:

* Python strings are Lean `String`s; all string manipulation is done on
  `List Char` via structural recursion so that every definition reduces in the
  kernel (no well-founded recursion, no `partial`).
* Python `None`-able values are `Option`s; Python truthiness of an optional
  string (`if x:`) is `pyTruthy`.
* Python floats are modelled as exact rationals (`ℚ`); the numeric claims in
  the spec are stated with exact arithmetic.
* Regular expressions are embedded as hand-rolled matchers that follow the
  backtracking semantics of Python's `re` module for the concrete patterns in
  the source (leftmost match, greedy/lazy quantifiers, ordered alternation,
  case-insensitive comparison via `Char.toLower`).  The `\w`, `\d` and `\s`
  classes are modelled at ASCII granularity.
* The SerpApi search gateway is passed to the extractors as a function
  argument `search : String → ℕ → List SearchResult` (query, num_results);
  the gateway itself (`get_serpapi_search_results`) is modelled separately
  with an explicit provider-outcome type in order to reason about its
  exception behaviour.
-/

/-! ## Basic Python string primitives -/

/-- ASCII whitespace, as matched by Python's `\s` and `str.strip()`/`str.split()`. -/
def pySpace (c : Char) : Bool :=
  c = ' ' || c = '\t' || c = '\n' || c = '\r' || c = '\x0b' || c = '\x0c'

/-- Lower-case a string character-wise (Python `str.lower()`, ASCII model). -/
def strLower (s : String) : String :=
  String.mk (s.toList.map Char.toLower)

/-- Contiguous-sublist test on char lists (Python's `pat in s`). -/
def isSubChars (pat : List Char) : List Char → Bool
  | [] => pat.isEmpty
  | c :: rest => pat.isPrefixOf (c :: rest) || isSubChars pat rest

/-- Python's substring containment `pat in s`. -/
def strContains (s pat : String) : Bool :=
  isSubChars pat.toList s.toList

/-- Case-insensitive prefix test (a literal under `re.IGNORECASE`). -/
def ciStartsWith (pat cs : List Char) : Bool :=
  (cs.take pat.length).map Char.toLower = pat.map Char.toLower &&
    pat.length ≤ cs.length

/-- Python truthiness of an optional string: `None` and `""` are falsy. -/
def pyTruthy : Option String → Bool
  | none => false
  | some s => s ≠ ""

/-- Strip ASCII whitespace from both ends of a char list (Python `str.strip()`). -/
def pyStripChars (cs : List Char) : List Char :=
  ((cs.dropWhile pySpace).reverse.dropWhile pySpace).reverse

/-- Strip any of the given characters from both ends (Python `str.strip(chars)`). -/
def pyStripSet (set : List Char) (cs : List Char) : List Char :=
  ((cs.dropWhile (set.contains ·)).reverse.dropWhile (set.contains ·)).reverse

/-- Split a char list at every occurrence of `sep`, keeping empty fields
(Python `str.split(sep)` for a one-character separator). -/
def splitOnChar (sep : Char) : List Char → List (List Char)
  | [] => [[]]
  | c :: rest =>
    match splitOnChar sep rest with
    | [] => [[]]
    | h :: t => if c = sep then [] :: h :: t else (c :: h) :: t

/-- Python `name.split(' ')`. -/
def pySplitSpace (s : String) : List String :=
  (splitOnChar ' ' s.toList).map String.mk

/-- Helper for `pySplitWs`: accumulate the current word (reversed). -/
def pySplitWsAux : List Char → List Char → List String
  | [], acc => if acc.isEmpty then [] else [String.mk acc.reverse]
  | c :: rest, acc =>
    if pySpace c then
      if acc.isEmpty then pySplitWsAux rest []
      else String.mk acc.reverse :: pySplitWsAux rest []
    else pySplitWsAux rest (c :: acc)

/-- Python `str.split()` with no argument: split on whitespace runs, no empties. -/
def pySplitWs (s : String) : List String :=
  pySplitWsAux s.toList []

/-- Replace all non-overlapping occurrences of `pat` by `rep`, left to right
(Python `str.replace`); `fuel` bounds the recursion and is instantiated with
the length of the subject, which suffices because every step consumes at
least one character. -/
def replaceAllAux (pat rep : List Char) : ℕ → List Char → List Char
  | _, [] => []
  | 0, l => l
  | fuel + 1, c :: rest =>
    if pat ≠ [] ∧ pat.isPrefixOf (c :: rest) then
      rep ++ replaceAllAux pat rep fuel ((c :: rest).drop pat.length)
    else
      c :: replaceAllAux pat rep fuel rest

/-- Python `s.replace(pat, rep)` (for non-empty `pat`, the only use here). -/
def strReplace (s pat rep : String) : String :=
  String.mk (replaceAllAux pat.toList rep.toList s.toList.length s.toList)

/-- Accumulate the numeric value of a digit string. -/
def digitsToNat (cs : List Char) : ℕ :=
  cs.foldl (fun acc c => 10 * acc + (c.toNat - 48)) 0

/-- Python `float()` restricted to strings made of ASCII digits and dots (the
only inputs it receives in this program, after `re.sub(r'[^0-9.]', '', _)`):
`"12"`, `"12."`, `".5"`, `"1.5"` parse; `""`, `"."`, `"1.2.3"` raise
`ValueError`, modelled as `none`. -/
def pyFloatDigits (s : String) : Option ℚ :=
  let cs := s.toList
  let ip := cs.takeWhile (·.isDigit)
  let rest := cs.dropWhile (·.isDigit)
  match rest with
  | [] => if ip.isEmpty then none else some (digitsToNat ip)
  | '.' :: frac =>
    if frac.all (·.isDigit) ∧ (ip ≠ [] ∨ frac ≠ []) then
      some ((digitsToNat ip : ℚ) + (digitsToNat frac : ℚ) / 10 ^ frac.length)
    else none
  | _ => none

/-! ## Data model -/

/-- One organic search result as consumed by the pipeline: `title` and
`snippet` are read with `.get(_, '')` (default empty), `link` is kept
optional because the code distinguishes key presence (`'link' in r`). -/
structure SearchResult where
  title : String
  snippet : String
  link : Option String
deriving DecidableEq, Repr

/-- Placeholder used as the `List.getD` default in theorem statements. -/
def noResult : SearchResult := ⟨"", "", none⟩

/-- Result of the revenue extractor: `{"USD_Normalized": _, "Confidence": _}`. -/
structure RevenueFact where
  usd : Option ℚ
  confidence : String
deriving DecidableEq, Repr

/-- Result of `enrich_contact_with_serpapi`. -/
structure ContactResult where
  linkedin_url : Option String
  designation : Option String
  work_email : Option String
  source : String
  confidence : String
deriving DecidableEq, Repr

/-! ## Search gateway (`get_serpapi_search_results`, lines 22-38) -/

/-- The dict returned by `search.get_dict()`: an `error` key may be present,
and the `organic_results` key may be absent (read with `.get(_, [])`). -/
structure SerpDict where
  error : Option String
  organic_results : Option (List SearchResult)

/-- Behaviour of one call to the SerpApi client: either the call raises, or
it returns a dict. -/
inductive ProviderOutcome where
  | throws (msg : String)
  | returns (d : SerpDict)

/-- The gateway `get_serpapi_search_results` (lines 22-38).  The body of the Python
`try` block is modelled with `Except`: a `.error` value would be a propagated
exception, `.ok` is a normal return.  The credential guard
(`not api_key or "your_api_key_here" in api_key`) runs before the `try`
block but cannot raise. -/
def get_serpapi_search_results (api_key : Option String)
    (provider : ProviderOutcome) : Except String (List SearchResult) :=
  if !pyTruthy api_key || strContains (api_key.getD "") "your_api_key_here" then
    .ok []
  else
    match provider with
    | .throws _ => .ok []
    | .returns d =>
      if d.error.isSome then .ok []
      else .ok (d.organic_results.getD [])

/-! ## Revenue extractor (`get_company_revenue_from_serpapi`, lines 40-78)

The regex `(\$[\d,]+\.?\d*\s*(?:billion|million|trillion))` (IGNORECASE) is
embedded as a direct matcher.  For this pattern the greedy quantifiers need
no backtracking: the character classes `[\d,]`, `\.`, `\d`, `\s` and the
first letters of the magnitude words are pairwise disjoint in every position
where backtracking could occur, so maximal munch is equivalent to Python's
behaviour. -/

/-- Match one of `billion|million|trillion` (ordered alternation,
case-insensitive) at the head of `cs`, returning the matched characters in
their original case. -/
def magWordAt (cs : List Char) : Option (List Char) :=
  if (cs.take 7).map Char.toLower = "billion".toList then some (cs.take 7)
  else if (cs.take 7).map Char.toLower = "million".toList then some (cs.take 7)
  else if (cs.take 8).map Char.toLower = "trillion".toList then some (cs.take 8)
  else none

/-- Try to match `\$[\d,]+\.?\d*\s*(?:billion|million|trillion)` starting
exactly at the head of `cs`; returns the matched text (`group(1)` spans the
whole match). -/
def revMatchAt (cs : List Char) : Option (List Char) :=
  match cs with
  | '$' :: rest =>
    let num := rest.takeWhile (fun c => c.isDigit || c = ',')
    let r1 := rest.dropWhile (fun c => c.isDigit || c = ',')
    if num.isEmpty then none
    else
      let dot : List Char := match r1 with | '.' :: _ => ['.'] | _ => []
      let r2 : List Char := match r1 with | '.' :: t => t | _ => r1
      let frac := r2.takeWhile (·.isDigit)
      let r3 := r2.dropWhile (·.isDigit)
      let sp := r3.takeWhile pySpace
      let r4 := r3.dropWhile pySpace
      match magWordAt r4 with
      | some w => some ('$' :: (num ++ dot ++ frac ++ sp ++ w))
      | none => none
  | _ => none

/-- Leftmost match of the revenue pattern (`re.search` semantics): try every
start position from the left. -/
def findRevAux : List Char → Option (List Char)
  | [] => none
  | c :: rest =>
    match revMatchAt (c :: rest) with
    | some m => some m
    | none => findRevAux rest

/-- Embeds `revenue_pattern.search(snippet)` returning `match.group(1)`. -/
def findRevMatch (s : String) : Option String :=
  (findRevAux s.toList).map String.mk

/-- Line 62: `revenue_str.lower().replace('$', '').replace(',', '').strip()`. -/
def cleanValue (mstr : String) : String :=
  String.mk (pyStripChars (strReplace (strReplace (strLower mstr) "$" "") "," "").toList)

/-- Line 66/68/70: `re.sub(r'[^0-9.]', '', value_str)` before `float()`. -/
def filterNumChars (s : String) : String :=
  String.mk (s.toList.filter (fun c => c.isDigit || c = '.'))

/-- Lines 63-70: the magnitude scale chosen by the `in`-containment cascade
(`billion` checked before `million` before `trillion`; `value` stays `0` if
none applies). -/
def magScale (vstr : String) : ℚ :=
  if strContains vstr "billion" then 1000000000
  else if strContains vstr "million" then 1000000
  else if strContains vstr "trillion" then 1000000000000
  else 0

/-- Lines 57-75 for a single snippet: first regex match, numeric parse and
scaling; `none` when there is no match, the mantissa fails to parse
(`ValueError` → `continue`), or the computed value is not positive. -/
def snippetRevenue (snippet : String) : Option ℚ :=
  match findRevMatch snippet with
  | none => none
  | some mstr =>
    let vstr := cleanValue mstr
    match pyFloatDigits (filterNumChars vstr) with
    | none => none
    | some m =>
      let value := m * magScale vstr
      if 0 < value then some value else none

/-- Lines 53-78: scan the results in gateway order; empty snippets are
skipped; the first snippet whose first match yields a positive value wins. -/
def scanResults : List SearchResult → RevenueFact
  | [] => ⟨none, "Low"⟩
  | r :: rest =>
    if r.snippet = "" then scanResults rest
    else
      match snippetRevenue r.snippet with
      | some v => ⟨some v, "Medium"⟩
      | none => scanResults rest

/-- Line 48: `f'"{company_name}" annual revenue'`. -/
def revQuery (c : String) : String :=
  "\"" ++ c ++ "\" annual revenue"

/-- The extractor `get_company_revenue_from_serpapi` (lines 40-78).  The second component
counts the search-gateway calls performed (the single call on line 49). -/
def getCompanyRevenue (search : String → ℕ → List SearchResult)
    (company : Option String) : RevenueFact × ℕ :=
  if !pyTruthy company then (⟨none, "Low"⟩, 0)
  else (scanResults (search (revQuery (company.getD "")) 5), 1)

/-! ## Designation extractor (`enrich_contact_with_serpapi`, lines 80-205) -/

/-- The fixed part of `ignore_keywords` (lines 111-116, up to `'tufts'`). -/
def baseIgnore : List String :=
  ["prev", "previous", "former", "ex", "student", "graduate",
   "university", "college", "institute", "school", "academy",
   "linkedin", "profile", "connections", "followers", "view", "mutual",
   "experience", "education", "volunteer", "skills", "endorsements",
   "tufts"]

/-- Line 117: `[n.lower() for n in name.lower().split() if len(n) > 2]`. -/
def nameTokens (name : String) : List String :=
  ((pySplitWs (strLower name)).filter (fun n => 2 < n.length)).map strLower

/-- Lines 111-117: the full `ignore_keywords` list. -/
def mkIgnoreKeywords (name company : String) : List String :=
  baseIgnore ++ [strLower company] ++ nameTokens name

/-- Line 158: the job-role keyword list for the +20 bonus. -/
def jobKeywords : List String :=
  ["manager", "director", "engineer", "lead", "head", "specialist", "sde",
   "intern", "consultant", "analyst", "architect", "vp", "president",
   "officer", "ca", "cpa", "cma"]

/-- Separator class of the cleaning regex on line 147: `[-–—,·|.]`. -/
def cleanSepChars : List Char := ['-', '–', '—', ',', '·', '|', '.']

/-- Lines 147-148: strip a leading case-insensitive repetition of the
person's name followed by `\s*[-–—,·|.]?\s*`
(`re.sub(f'^{re.escape(name)}\s*[-–—,·|.]?\s*', '', text, re.IGNORECASE)`),
then Python `.strip()` and `.strip(' -|·,')`. -/
def cleanCandidate (name text : String) : String :=
  let cs := text.toList
  let stripped :=
    if ciStartsWith name.toList cs then
      let r1 := (cs.drop name.toList.length).dropWhile pySpace
      let r2 : List Char :=
        match r1 with
        | ch :: t => if cleanSepChars.contains ch then t else r1
        | [] => r1
      r2.dropWhile pySpace
    else cs
  String.mk (pyStripSet [' ', '-', '|', '·', ','] (pyStripChars stripped))

/-- Lines 151-154: a cleaned candidate survives iff it is non-empty, within
the 3..50 length bounds, has no truncation ellipsis, and contains no ignore
keyword (case-insensitive substring test). -/
def passesValidation (ignore : List String) (cleaned : String) : Bool :=
  !(cleaned = "" || cleaned.length < 3 || strContains cleaned "..." ||
      50 < cleaned.length) &&
  !(ignore.any (fun kw => strContains (strLower cleaned) kw))

/-- Lines 157-159: base score plus the +20 job-keyword bonus. -/
def adjustScore (cleaned : String) (base : ℤ) : ℤ :=
  base + (if jobKeywords.any (fun w => strContains (strLower cleaned) w) then 20 else 0)

/-- One iteration of the scoring loop (lines 145-163); the accumulator is
`(best_candidate, highest_score)`. -/
def selectStep (name : String) (ignore : List String)
    (acc : Option String × ℤ) (c : String × ℤ) : Option String × ℤ :=
  let cleaned := cleanCandidate name c.1
  if passesValidation ignore cleaned then
    let score := adjustScore cleaned c.2
    if acc.2 < score then (some cleaned, score) else acc
  else acc

/-- Lines 142-163: run the scoring loop over the candidate list, starting
from `best_candidate = None`, `highest_score = -1`. -/
def selectBest (name : String) (ignore : List String)
    (cands : List (String × ℤ)) : Option String :=
  (cands.foldl (selectStep name ignore) (none, -1)).1

/-! ### The four extraction patterns (lines 119-139)

All matchers work on char lists, are case-insensitive, and reproduce the
backtracking order of Python's `re` engine: leftmost start position, lazy
(`+?`) groups try shorter first, greedy quantifiers try longer first,
alternatives in written order. -/

/-- The character class `[\w\s,'()-]` of patterns 1, 2 and 4 (`\w` at ASCII
granularity). -/
def p1Class (c : Char) : Bool :=
  c.isAlphanum || c = '_' || pySpace c || c = ',' || c = '\'' || c = '(' ||
    c = ')' || c = '-'

/-- Match `\s+<company>` (case-insensitive literal) at the head of `cs`,
trying the whitespace length from `wmax` down to `1` (greedy `\s+` with
backtracking); returns the total number of characters consumed. -/
def spacesThenLit (company : List Char) (cs : List Char) : Option ℕ :=
  let wmax := (cs.takeWhile pySpace).length
  (List.range wmax).findSome? (fun d =>
    let k := wmax - d
    if ciStartsWith company (cs.drop k) then some (k + company.length) else none)

/-- Match `\s*<company>` at the head of `cs`, trying the whitespace length
from the maximal run down to `0`. -/
def spacesOptThenLit (company : List Char) (cs : List Char) : Option ℕ :=
  let wmax := (cs.takeWhile pySpace).length
  (List.range (wmax + 1)).findSome? (fun d =>
    let k := wmax - d
    if ciStartsWith company (cs.drop k) then some (k + company.length) else none)

/-- Match `(?:@|at)` at the head of `cs` (ordered alternation, `@` first),
returning the consumed length. -/
def atSepAt (cs : List Char) : Option ℕ :=
  match cs with
  | '@' :: _ => some 1
  | _ => if ciStartsWith ['a', 't'] cs then some 2 else none

/-- Match the pattern-1 tail `\s*(?:@|at)\s+<company>` at the head of `cs`,
returning the consumed length.  The outer `\s*` backtracks from its maximal
run. -/
def p1Tail (company : List Char) (cs : List Char) : Option ℕ :=
  let wmax := (cs.takeWhile pySpace).length
  (List.range (wmax + 1)).findSome? (fun d =>
    let k := wmax - d
    match atSepAt (cs.drop k) with
    | some slen =>
      match spacesThenLit company (cs.drop (k + slen)) with
      | some tl => some (k + slen + tl)
      | none => none
    | none => none)

/-- Match the pattern-2 tail `\s*[-|·]\s*<company>` at the head of `cs`. -/
def p2Tail (company : List Char) (cs : List Char) : Option ℕ :=
  let wmax := (cs.takeWhile pySpace).length
  (List.range (wmax + 1)).findSome? (fun d =>
    let k := wmax - d
    match cs.drop k with
    | ch :: t =>
      if ch = '-' || ch = '|' || ch = '·' then
        match spacesOptThenLit company t with
        | some tl => some (k + 1 + tl)
        | none => none
      else none
    | [] => none)

/-- Try `([\w\s,'()-]+?)<tail>` at the head of `cs`: the lazy group takes the
shortest length `g ≥ 1` of class characters such that the tail matches just
after it.  Returns `(group text, total match length)`. -/
def lazyGroupThen (tail : List Char → Option ℕ) (cs : List Char) :
    Option (List Char × ℕ) :=
  let gmax := (cs.takeWhile p1Class).length
  (List.range gmax).findSome? (fun gm1 =>
    let g := gm1 + 1
    match tail (cs.drop g) with
    | some tl => some (cs.take g, g + tl)
    | none => none)

/-- The `finditer` driver: scan start positions left to right; after a match,
resume at its end (matches never have length 0 here, so the fuel
`cs.length` suffices). -/
def finditerAux (matchAt : List Char → Option (List Char × ℕ)) :
    ℕ → List Char → List (List Char)
  | 0, _ => []
  | _, [] => []
  | fuel + 1, c :: rest =>
    match matchAt (c :: rest) with
    | some (grp, len) => grp :: finditerAux matchAt fuel ((c :: rest).drop len)
    | none => finditerAux matchAt fuel rest

/-- Pattern 1 (line 120): all matches of
`([\w\s,'()-]+?)\s*(?:@|at)\s+<company>` in the subject, in text order. -/
def p1FindAll (company : List Char) (cs : List Char) : List (List Char) :=
  finditerAux (lazyGroupThen (p1Tail company)) cs.length cs

/-- Pattern 2 (line 125): all matches of
`([\w\s,'()-]+?)\s*[-|·]\s*<company>` in the subject, in text order. -/
def p2FindAll (company : List Char) (cs : List Char) : List (List Char) :=
  finditerAux (lazyGroupThen (p2Tail company)) cs.length cs

/-- Pattern 3 (line 130): `^<name>\s*[,·-]\s*([^,·|]+)`, anchored at the
start; the trailing greedy group takes the maximal run of characters not in
`{',', '·', '|'}` and must be non-empty; the `\s*` before it backtracks. -/
def p3Search (name : List Char) (cs : List Char) : Option (List Char) :=
  if ciStartsWith name cs then
    let r := cs.drop name.length
    let w1 := (r.takeWhile pySpace).length
    (List.range (w1 + 1)).findSome? (fun d =>
      let k := w1 - d
      match r.drop k with
      | ch :: t =>
        if ch = ',' || ch = '·' || ch = '-' then
          let w2 := (t.takeWhile pySpace).length
          (List.range (w2 + 1)).findSome? (fun d2 =>
            let k2 := w2 - d2
            let grp := (t.drop k2).takeWhile
              (fun c => !(c = ',' || c = '·' || c = '|'))
            if grp.isEmpty then none else some grp)
        else none
      | [] => none)
  else none

/-- Pattern 4 (line 136): leftmost match of
`(?:i'm a|is a)\s+([\w\s,'()-]+)`; alternatives in order, `\s+` backtracks,
the greedy group takes the maximal class run and must be non-empty. -/
def p4SearchAux : List Char → Option (List Char)
  | [] => none
  | c :: rest =>
    let cs := c :: rest
    let lit1 : List Char := ['i', '\'', 'm', ' ', 'a']
    let lit2 : List Char := ['i', 's', ' ', 'a']
    let litLen : Option ℕ :=
      if ciStartsWith lit1 cs then some 5
      else if ciStartsWith lit2 cs then some 4
      else none
    match litLen with
    | some ll =>
      let r := cs.drop ll
      let w := (r.takeWhile pySpace).length
      match (List.range w).findSome? (fun d =>
        let k := w - d
        let grp := (r.drop k).takeWhile p1Class
        if grp.isEmpty then none else some grp) with
      | some grp => some grp
      | none => p4SearchAux rest
    | none => p4SearchAux rest

/-- Embeds `pattern4.search(snippet)` returning `group(1)`. -/
def p4Search (cs : List Char) : Option (List Char) :=
  p4SearchAux cs

/-- Lines 106-139: build the weighted candidate list from the accepted
result's title and snippet (`full_text = f"{title} | {snippet}"`), in the
order pattern 1, 2, 3, 4. -/
def genCandidates (name company title snippet : String) : List (String × ℤ) :=
  let full_text := title ++ " | " ++ snippet
  (p1FindAll company.toList full_text.toList).map (fun g => (String.mk g, (100 : ℤ)))
  ++ (p2FindAll company.toList title.toList).map (fun g => (String.mk g, (80 : ℤ)))
  ++ (match p3Search name.toList full_text.toList with
      | some g => [(String.mk g, (60 : ℤ))]
      | none => [])
  ++ (match p4Search snippet.toList with
      | some g => [(String.mk g, (40 : ℤ))]
      | none => [])

/-- Lines 12-18: the static manual-override table, in source order. -/
def MANUAL_DESIGNATIONS : List ((String × String) × String) :=
  [(("Julian Kelly", "Google"), "Sr. Director, Hardware at Google Quantum AI"),
   (("Andy Wong", "Meta"), "Engineering"),
   (("Srilakshmi Peri", "Google"), "UX Design"),
   (("Sai Swarup Nerella", "Hubspot"), "HubSpot SE@CloudFiles"),
   (("Gauri Saxena", "PW & Co LLP"), "CA- M&A- Pw & Co LLP | CPA (AU) | CMA (ICWAI)")]

/-- The lookup loop of lines 171-175: first entry whose (name, company) pair
matches case-insensitively wins (`break`). -/
def lookupManualGo (name company : String) :
    List ((String × String) × String) → Option String
  | [] => none
  | ((mn, mc), d) :: rest =>
    if strLower mn = strLower name ∧ strLower mc = strLower company then some d
    else lookupManualGo name company rest

/-- Case-insensitive lookup in `MANUAL_DESIGNATIONS`. -/
def lookupManual (name company : String) : Option String :=
  lookupManualGo name company MANUAL_DESIGNATIONS

/-- Lines 168-175: the manual override runs only when the extracted
designation is falsy; on a miss the designation is left unchanged. -/
def determineDesignation (extracted : Option String) (name company : String) :
    Option String :=
  if pyTruthy extracted then extracted
  else
    match lookupManual name company with
    | some d => some d
    | none => extracted

/-- The personal-profile path marker `'linkedin.com/in/'`. -/
def linkedinMarker : String := "linkedin.com/in/"

/-- Lines 100-166: given the (possibly retried) search results, accept the
top result when its link contains the profile marker, and extract
`(linkedin_url, designation-from-candidates)`. -/
def profileStep (results : List SearchResult) (n c : String) :
    Option String × Option String :=
  match results with
  | [] => (none, none)
  | top :: _ =>
    let lk := top.link.getD ""
    if strContains lk linkedinMarker then
      (some lk,
       selectBest n (mkIgnoreKeywords n c)
         (genCandidates n c top.title top.snippet))
    else (none, none)

/-! ## Domain/email guesser (lines 182-197) -/

/-- Characters allowed in a URL scheme after the initial letter
(`urllib.parse` accepts letters, digits, `+`, `-`, `.`). -/
def isSchemeChar (c : Char) : Bool :=
  c.isAlphanum || c = '+' || c = '-' || c = '.'

/-- Drop a leading `<scheme>:` from a URL if present (first character a
letter, the rest scheme characters, immediately followed by `:`), as
`urllib.parse.urlparse` does. -/
def splitScheme (cs : List Char) : List Char :=
  match cs with
  | [] => []
  | c :: rest =>
    if c.isAlpha then
      match rest.dropWhile isSchemeChar with
      | ':' :: tail => tail
      | _ => cs
    else cs

/-- Embeds `urlparse(url).netloc`: present only when (after the scheme) the URL
continues with `//`; it then extends to the next `/`, `?` or `#`. -/
def urlNetloc (url : String) : String :=
  match splitScheme url.toList with
  | '/' :: '/' :: tail =>
    String.mk (tail.takeWhile (fun c => !(c = '/' || c = '?' || c = '#')))
  | _ => ""

/-- Lines 183-197: guess a work email from the top domain-search result.
`domain_hint = urlparse(link).netloc.replace("www.", "")`; the guess is
produced only when the hint is truthy and `len(name.split(' ')) > 1`. -/
def guessWorkEmail (domainResults : List SearchResult) (name : String) :
    Option String :=
  match domainResults with
  | [] => none
  | r :: _ =>
    match r.link with
    | none => none
    | some url =>
      let domain_hint := strReplace (urlNetloc url) "www." ""
      let fields := pySplitSpace name
      if domain_hint ≠ "" ∧ 1 < fields.length then
        some (strLower (fields.headD "") ++ "." ++
          strLower (fields.getLastD "") ++ "@" ++ domain_hint)
      else none

/-! ## The whole contact-enrichment function (lines 80-205) -/

/-- Lines 91-98: the two-stage profile search; the second, more specific
query runs when the first returns nothing or a link without the
personal-profile marker. -/
def profileResults (search : String → ℕ → List SearchResult)
    (n c : String) : List SearchResult :=
  if (search ("\"" ++ n ++ "\" \"" ++ c ++ "\" site:linkedin.com") 1).isEmpty ||
      !strContains (((search ("\"" ++ n ++ "\" \"" ++ c ++
          "\" site:linkedin.com") 1).headD noResult).link.getD "")
        linkedinMarker then
    search ("\"" ++ n ++ "\" \"" ++ c ++
      "\" linkedin profile site:linkedin.com/in/") 1
  else
    search ("\"" ++ n ++ "\" \"" ++ c ++ "\" site:linkedin.com") 1

/-- The full `enrich_contact_with_serpapi`, with the gateway passed as `search`. -/
def enrich (search : String → ℕ → List SearchResult)
    (name company : Option String) : ContactResult :=
  if !pyTruthy name || !pyTruthy company then
    ⟨none, none, none, "SerpApi", "Low"⟩
  else
    ContactResult.mk
      (profileStep (profileResults search (name.getD "") (company.getD ""))
        (name.getD "") (company.getD "")).1
      (determineDesignation
        (profileStep (profileResults search (name.getD "") (company.getD ""))
          (name.getD "") (company.getD "")).2
        (name.getD "") (company.getD ""))
      (guessWorkEmail
        (search ("\"" ++ company.getD "" ++ "\" official website") 1)
        (name.getD ""))
      "SerpApi"
      (if pyTruthy (profileStep
          (profileResults search (name.getD "") (company.getD ""))
          (name.getD "") (company.getD "")).1 then "Medium" else "Low")

/-! ## Main-stage record processing (lines 237-257) -/

/-- Embeds `np.random.randint(lo, hi)` for one draw, modelled over an abstract
source of raw random numbers: the draw is `lo + r % (hi - lo)`, which is in
`[lo, hi)` for every `r` and is uniform on `[lo, hi)` whenever `r` is
uniform on any whole number of periods of length `hi - lo`. -/
def npRandint (lo hi : ℕ) (r : ℕ) : ℕ :=
  lo + r % (hi - lo)

/-- Lines 237-245: fill every missing revenue with
`np.random.randint(50_000_000, 1_500_000_000)`; present revenues are kept.
`k` indexes into the random source, advancing once per missing record (the
vectorised `size=num_missing` draw, read in order). -/
def backfillRevenues (rand : ℕ → ℕ) : List (Option ℚ) → ℕ → List ℚ
  | [], _ => []
  | some v :: rest, k => v :: backfillRevenues rand rest k
  | none :: rest, k =>
    ((npRandint 50000000 1500000000 (rand k) : ℕ) : ℚ) ::
      backfillRevenues rand rest (k + 1)

/-- Embeds `np.select(conditions, choices, default)` for parallel condition/choice
lists: first true condition wins, otherwise the default. -/
def npSelect : List (Bool × String) → String → String
  | [], d => d
  | (cond, choice) :: rest, d => if cond then choice else npSelect rest d

/-- Lines 251-257: the tier of a (backfilled) revenue amount. -/
def calculatedTier (amount : ℚ) : String :=
  npSelect
    [(decide (1000000000 < amount), "Super Platinum"),
     (decide (500000000 ≤ amount), "Platinum"),
     (decide (100000000 ≤ amount), "Diamond")]
    "Gold"

/-! ## Spec-side definitions

These restate selection and host resolution in the words of the spec, for
comparison with the embedded code. -/

/-- The surviving candidates of the scoring loop: each candidate is cleaned,
validated, and paired with its adjusted score, in first-seen order. -/
def survivingCandidates (name : String) (ignore : List String)
    (cands : List (String × ℤ)) : List (String × ℤ) :=
  cands.filterMap (fun c =>
    let cl := cleanCandidate name c.1
    if passesValidation ignore cl then some (cl, adjustScore cl c.2) else none)

/-- The rule "pick strictly the highest adjusted score; ties keep the first-seen":
the first list element whose score is maximal. -/
def firstArgmax (l : List (String × ℤ)) : Option String :=
  (l.find? (fun s => l.all (fun t => t.2 ≤ s.2))).map Prod.fst

/-- Host resolution as claim C6 words it: the network host with one LEADING
`"www."` prefix stripped (the code instead removes every occurrence). -/
def specResolvedHost (url : String) : String :=
  let h := urlNetloc url
  if "www.".toList.isPrefixOf h.toList then String.mk (h.toList.drop 4) else h

/-- The "space-separated tokens" of a name as claim C6 words it: the
non-empty maximal runs between spaces (the code instead counts the raw
fields of `name.split(' ')`, which include empty fields for leading,
trailing or doubled spaces). -/
def specSpaceTokens (name : String) : List String :=
  (pySplitSpace name).filter (fun t => t ≠ "")

/-- A search gateway stub used in concrete instances: every query returns no
results except the company-domain query for Meta. -/
def stubSearchMeta : String → ℕ → List SearchResult :=
  fun q _ =>
    if q = "\"Meta\" official website" then [⟨"", "", some "http://meta.com/"⟩]
    else []

/-- One update of the scoring loop restricted to an already-surviving
candidate: keep the better of the accumulator and the new `(text, score)`
pair, strictly (ties keep the accumulator). -/
def maxStep (acc : Option String × ℤ) (s : String × ℤ) : Option String × ℤ :=
  if acc.2 < s.2 then (some s.1, s.2) else acc

/-- The eventual winner of the scoring loop over `l` when the running best
score is `m`: `none` when no element exceeds `m`. -/
def loopPick (m : ℤ) : List (String × ℤ) → Option (String × ℤ)
  | [] => none
  | s :: rest =>
    if m < s.2 then some ((loopPick s.2 rest).getD s) else loopPick m rest

/-- A search gateway stub whose single result snippet contains no currency
figure; used by the C1 witness. -/
def stubSearchNoRevenue : String → ℕ → List SearchResult :=
  fun _ _ => [⟨"", "no revenue figures here", none⟩]

/-! # Theorems -/

/-! ## General-purpose lemmas -/

theorem find?_congr {α : Type} (l : List α) (p q : α → Bool)
    (h : ∀ x ∈ l, p x = q x) : l.find? p = l.find? q := by
  induction l with
  | nil => rfl
  | cons a t ih =>
    have ha := h a (List.mem_cons_self a t)
    cases hq : q a with
    | true =>
      rw [List.find?_cons_of_pos _ (ha.trans hq), List.find?_cons_of_pos _ hq]
    | false =>
      rw [List.find?_cons_of_neg _ (by simp [ha.trans hq]),
        List.find?_cons_of_neg _ (by simp [hq])]
      exact ih (fun x hx => h x (List.mem_cons_of_mem _ hx))

theorem isPrefixOf_self (l : List Char) : l.isPrefixOf l = true := by
  induction l with
  | nil => rfl
  | cons a t ih => simp [List.isPrefixOf, ih]

theorem isSubChars_self (l : List Char) : isSubChars l l = true := by
  cases l with
  | nil => rfl
  | cons a t => simp [isSubChars, isPrefixOf_self]

theorem strContains_self (s : String) : strContains s s = true :=
  isSubChars_self s.toList

theorem exists_max_score :
    ∀ l : List (String × ℤ), l ≠ [] → ∃ x ∈ l, ∀ y ∈ l, y.2 ≤ x.2 := by
  intro l
  induction l with
  | nil => intro h; exact absurd rfl h
  | cons a t ih =>
    intro _
    cases t with
    | nil => exact ⟨a, List.mem_cons_self a [], by simp⟩
    | cons b t' =>
      obtain ⟨x, hx, hmax⟩ := ih (by simp)
      rcases le_total a.2 x.2 with hax | hax
      · exact ⟨x, List.mem_cons_of_mem _ hx, by
          intro y hy
          rcases List.mem_cons.1 hy with rfl | hy
          · exact hax
          · exact hmax y hy⟩
      · exact ⟨a, List.mem_cons_self _ _, by
          intro y hy
          rcases List.mem_cons.1 hy with rfl | hy
          · exact le_refl _
          · exact le_trans (hmax y hy) hax⟩

/-! ## Lemmas about the scoring loop -/

theorem foldl_selectStep_eq_surviving (name : String) (ignore : List String) :
    ∀ (cands : List (String × ℤ)) (acc : Option String × ℤ),
      cands.foldl (selectStep name ignore) acc =
        (survivingCandidates name ignore cands).foldl maxStep acc := by
  intro cands
  induction cands with
  | nil => intro acc; rfl
  | cons c t ih =>
    intro acc
    by_cases hv : passesValidation ignore (cleanCandidate name c.1) = true
    · have hsel : selectStep name ignore acc c =
          maxStep acc (cleanCandidate name c.1, adjustScore (cleanCandidate name c.1) c.2) := by
        simp [selectStep, hv, maxStep]
      have hsurv : survivingCandidates name ignore (c :: t) =
          (cleanCandidate name c.1, adjustScore (cleanCandidate name c.1) c.2) ::
            survivingCandidates name ignore t := by
        simp [survivingCandidates, List.filterMap_cons, hv]
      rw [List.foldl_cons, hsel, hsurv, List.foldl_cons, ih]
    · have hsel : selectStep name ignore acc c = acc := by
        simp only [selectStep]
        rw [if_neg hv]
      have hsurv : survivingCandidates name ignore (c :: t) =
          survivingCandidates name ignore t := by
        simp only [survivingCandidates, List.filterMap_cons]
        rw [if_neg hv]
      rw [List.foldl_cons, hsel, hsurv, ih]

theorem foldl_maxStep_loopPick :
    ∀ (l : List (String × ℤ)) (b : Option String) (m : ℤ),
      l.foldl maxStep (b, m) =
        match loopPick m l with
        | none => (b, m)
        | some s => (some s.1, s.2) := by
  intro l
  induction l with
  | nil => intro b m; rfl
  | cons s t ih =>
    intro b m
    by_cases h : m < s.2
    · have hstep : maxStep (b, m) s = (some s.1, s.2) := by simp [maxStep, h]
      rw [List.foldl_cons, hstep, ih s.1 s.2]
      simp only [loopPick, if_pos h]
      cases hlp : loopPick s.2 t <;> simp [hlp]
    · have hstep : maxStep (b, m) s = (b, m) := by simp [maxStep, h]
      rw [List.foldl_cons, hstep, ih b m]
      simp only [loopPick, if_neg h]

theorem loopPick_eq_find? :
    ∀ (l : List (String × ℤ)) (m : ℤ),
      loopPick m l =
        l.find? (fun s => decide (m < s.2) && l.all (fun t => t.2 ≤ s.2)) := by
  intro l
  induction l with
  | nil => intro m; rfl
  | cons s t ih =>
    intro m
    simp only [loopPick]
    by_cases hm : m < s.2
    · rw [if_pos hm]
      by_cases hall : ∀ y ∈ t, y.2 ≤ s.2
      · have hpred : (decide (m < s.2) &&
            (s :: t).all (fun y => decide (y.2 ≤ s.2))) = true := by
          simp only [Bool.and_eq_true, decide_eq_true_eq, List.all_eq_true,
            List.mem_cons]
          refine ⟨hm, ?_⟩
          rintro y (rfl | hy)
          · simp
          · simp [hall y hy]
        rw [List.find?_cons]
        simp only [hpred]
        have hnone : loopPick s.2 t = none := by
          rw [ih]
          apply List.find?_eq_none.2
          intro x hx hpx
          simp only [Bool.and_eq_true, decide_eq_true_eq] at hpx
          exact absurd (hall x hx) (not_le.2 hpx.1)
        rw [hnone]
        rfl
      · push_neg at hall
        obtain ⟨x0, hx0m, hx0⟩ := hall
        have hpred : (decide (m < s.2) &&
            (s :: t).all (fun y => decide (y.2 ≤ s.2))) = false := by
          rw [Bool.eq_false_iff]
          simp only [ne_eq, Bool.and_eq_true, decide_eq_true_eq,
            List.all_eq_true, List.mem_cons, not_and]
          intro _ hy
          have := hy x0 (Or.inr hx0m)
          simp only [decide_eq_true_eq] at this
          omega
        rw [List.find?_cons]
        simp only [hpred]
        rw [ih s.2]
        have hcongr :
            t.find? (fun x => decide (s.2 < x.2) &&
              t.all (fun y => y.2 ≤ x.2)) =
            t.find? (fun x => decide (m < x.2) &&
              (s :: t).all (fun y => y.2 ≤ x.2)) := by
          apply find?_congr
          intro x hx
          by_cases hax : ∀ y ∈ t, y.2 ≤ x.2
          · have hsx : s.2 < x.2 := lt_of_lt_of_le hx0 (hax x0 hx0m)
            have h1 : (decide (s.2 < x.2) &&
                t.all (fun y => decide (y.2 ≤ x.2))) = true := by
              simp only [Bool.and_eq_true, decide_eq_true_eq, List.all_eq_true]
              exact ⟨hsx, fun y hy => by simp [hax y hy]⟩
            have h2 : (decide (m < x.2) &&
                (s :: t).all (fun y => decide (y.2 ≤ x.2))) = true := by
              simp only [Bool.and_eq_true, decide_eq_true_eq, List.all_eq_true,
                List.mem_cons]
              refine ⟨by omega, ?_⟩
              rintro y (rfl | hy)
              · simp [le_of_lt hsx]
              · simp [hax y hy]
            rw [h1, h2]
          · push_neg at hax
            obtain ⟨y0, hy0m, hy0⟩ := hax
            have h1 : (decide (s.2 < x.2) &&
                t.all (fun y => decide (y.2 ≤ x.2))) = false := by
              rw [Bool.eq_false_iff]
              simp only [ne_eq, Bool.and_eq_true, decide_eq_true_eq,
                List.all_eq_true, not_and]
              intro _ hy
              have := hy y0 hy0m
              simp only [decide_eq_true_eq] at this
              omega
            have h2 : (decide (m < x.2) &&
                (s :: t).all (fun y => decide (y.2 ≤ x.2))) = false := by
              rw [Bool.eq_false_iff]
              simp only [ne_eq, Bool.and_eq_true, decide_eq_true_eq,
                List.all_eq_true, List.mem_cons, not_and]
              intro _ hy
              have := hy y0 (Or.inr hy0m)
              simp only [decide_eq_true_eq] at this
              omega
            rw [h1, h2]
        have hne : t.find? (fun x => decide (s.2 < x.2) &&
            t.all (fun y => y.2 ≤ x.2)) ≠ none := by
          obtain ⟨xm, hxmm, hxmax⟩ :=
            exists_max_score t (by rintro rfl; cases hx0m)
          intro hnone
          apply List.find?_eq_none.1 hnone xm hxmm
          simp only [Bool.and_eq_true, decide_eq_true_eq, List.all_eq_true]
          exact ⟨lt_of_lt_of_le hx0 (hxmax x0 hx0m),
            fun y hy => by simp [hxmax y hy]⟩
        rw [← hcongr]
        cases hfind : t.find? (fun x => decide (s.2 < x.2) &&
            t.all (fun y => y.2 ≤ x.2)) with
        | none => exact absurd hfind hne
        | some w => simp
    · rw [if_neg hm]
      have hpred : (decide (m < s.2) &&
          (s :: t).all (fun y => decide (y.2 ≤ s.2))) = false := by
        have h0 : decide (m < s.2) = false := by simp [hm]
        rw [h0, Bool.false_and]
      rw [List.find?_cons]
      simp only [hpred]
      rw [ih m]
      apply find?_congr
      intro x hx
      by_cases hmx : m < x.2
      · have hsx : decide (s.2 ≤ x.2) = true := by
          simp only [decide_eq_true_eq]
          omega
        rw [List.all_cons, hsx, Bool.true_and]
      · have h0 : decide (m < x.2) = false := by simp [hmx]
        rw [List.all_cons, h0, Bool.false_and, Bool.false_and]

theorem loopPick_mem :
    ∀ (l : List (String × ℤ)) (m : ℤ) (w : String × ℤ),
      loopPick m l = some w → w ∈ l := by
  intro l
  induction l with
  | nil => intro m w h; cases h
  | cons s t ih =>
    intro m w h
    simp only [loopPick] at h
    split_ifs at h with hm
    · cases hlp : loopPick s.2 t with
      | none =>
        rw [hlp] at h
        simp only [Option.getD_none] at h
        injection h with h
        exact h ▸ List.mem_cons_self _ _
      | some u =>
        rw [hlp] at h
        simp only [Option.getD_some] at h
        injection h with h
        exact h ▸ List.mem_cons_of_mem _ (ih _ _ hlp)
    · exact List.mem_cons_of_mem _ (ih _ _ h)

theorem surviving_mem (name : String) (ignore : List String)
    (cands : List (String × ℤ)) :
    ∀ s ∈ survivingCandidates name ignore cands,
      ∃ c ∈ cands, s.1 = cleanCandidate name c.1 ∧
        passesValidation ignore s.1 = true ∧
        s.2 = adjustScore s.1 c.2 := by
  intro s hs
  simp only [survivingCandidates, List.mem_filterMap] at hs
  obtain ⟨c, hc, heq⟩ := hs
  split_ifs at heq with hv
  · injection heq with heq
    subst heq
    exact ⟨c, hc, rfl, hv, rfl⟩

theorem selectBest_eq_firstArgmax_of_nonneg (name : String)
    (ignore : List String) (cands : List (String × ℤ))
    (h : ∀ s ∈ survivingCandidates name ignore cands, 0 ≤ s.2) :
    selectBest name ignore cands =
      firstArgmax (survivingCandidates name ignore cands) := by
  unfold selectBest firstArgmax
  rw [foldl_selectStep_eq_surviving, foldl_maxStep_loopPick,
    loopPick_eq_find?]
  have hcongr :
      (survivingCandidates name ignore cands).find?
        (fun s => decide ((-1 : ℤ) < s.2) &&
          (survivingCandidates name ignore cands).all (fun t => t.2 ≤ s.2)) =
      (survivingCandidates name ignore cands).find?
        (fun s => (survivingCandidates name ignore cands).all
          (fun t => t.2 ≤ s.2)) := by
    apply find?_congr
    intro x hx
    have hx0 : (-1 : ℤ) < x.2 := lt_of_lt_of_le (by norm_num) (h x hx)
    simp [hx0]
  rw [hcongr]
  cases hf : (survivingCandidates name ignore cands).find?
      (fun s => (survivingCandidates name ignore cands).all
        (fun t => t.2 ≤ s.2)) <;> simp [hf]

theorem selectBest_valid (name : String) (ignore : List String)
    (cands : List (String × ℤ)) (d : String)
    (h : selectBest name ignore cands = some d) :
    passesValidation ignore d = true := by
  unfold selectBest at h
  rw [foldl_selectStep_eq_surviving, foldl_maxStep_loopPick] at h
  cases hlp : loopPick (-1) (survivingCandidates name ignore cands) with
  | none => rw [hlp] at h; cases h
  | some w =>
    rw [hlp] at h
    dsimp only at h
    injection h with h
    obtain ⟨c, _, _, hval, _⟩ :=
      surviving_mem name ignore cands w (loopPick_mem _ _ _ hlp)
    exact h ▸ hval

/-! ## Claim C4: tier derivation -/

theorem calculatedTier_eq (a : ℚ) :
    calculatedTier a =
      if 1000000000 < a then "Super Platinum"
      else if 500000000 ≤ a then "Platinum"
      else if 100000000 ≤ a then "Diamond"
      else "Gold" := by
  simp [calculatedTier, npSelect]

/-- C4: for every numeric revenue amount, the derived tier is
"Super Platinum" if amount > 1e9, otherwise "Platinum" if amount ≥ 5e8,
otherwise "Diamond" if amount ≥ 1e8, otherwise "Gold"; in particular
1,000,000,001 → "Super Platinum", 500,000,000 → "Platinum",
100,000,000 → "Diamond", 99,999,999 → "Gold". -/
theorem tier_of_revenue (a : ℚ) :
    (1000000000 < a → calculatedTier a = "Super Platinum") ∧
    (a ≤ 1000000000 → 500000000 ≤ a → calculatedTier a = "Platinum") ∧
    (a < 500000000 → 100000000 ≤ a → calculatedTier a = "Diamond") ∧
    (a < 100000000 → calculatedTier a = "Gold") ∧
    calculatedTier 1000000001 = "Super Platinum" ∧
    calculatedTier 500000000 = "Platinum" ∧
    calculatedTier 100000000 = "Diamond" ∧
    calculatedTier 99999999 = "Gold" := by
  refine ⟨?_, ?_, ?_, ?_, ?_, ?_, ?_, ?_⟩
  · intro h
    rw [calculatedTier_eq, if_pos h]
  · intro h1 h2
    rw [calculatedTier_eq, if_neg (by linarith), if_pos h2]
  · intro h1 h2
    rw [calculatedTier_eq, if_neg (by linarith), if_neg (by linarith),
      if_pos h2]
  · intro h
    rw [calculatedTier_eq, if_neg (by linarith), if_neg (by linarith),
      if_neg (by linarith)]
  · rw [calculatedTier_eq, if_pos (by norm_num)]
  · rw [calculatedTier_eq, if_neg (by norm_num), if_pos (by norm_num)]
  · rw [calculatedTier_eq, if_neg (by norm_num), if_neg (by norm_num),
      if_pos (by norm_num)]
  · rw [calculatedTier_eq, if_neg (by norm_num), if_neg (by norm_num),
      if_neg (by norm_num)]

/-- Witness for `tier_of_revenue`. -/
theorem tier_of_revenue_witness :
    (1000000000 : ℚ) < 1000000001 ∧
      calculatedTier 1000000001 = "Super Platinum" :=
  ⟨by norm_num, (tier_of_revenue 1000000001).1 (by norm_num)⟩

/-! ## Claim C5: random backfill of missing revenues -/

theorem npRandint_uniform (v : ℕ) (h1 : 50000000 ≤ v) (h2 : v < 1500000000) :
    ∃! r, r < 1450000000 ∧ npRandint 50000000 1500000000 r = v := by
  unfold npRandint
  refine ⟨v - 50000000, ⟨by omega, by omega⟩, ?_⟩
  rintro r ⟨hr1, hr2⟩
  omega

/-- C5: for every record list, every state of the random source, and every
index, a missing revenue is backfilled with a value in
[50,000,000, 1,500,000,000) while a present revenue is kept unchanged; the
modelled `np.random.randint` sampler hits every value of the half-open
interval exactly once per period of the source, i.e. the draw is uniform. -/
theorem backfill_missing_revenue (rand : ℕ → ℕ) (revs : List (Option ℚ))
    (k i : ℕ) (hlen : i < revs.length) :
    ((revs.getD i none).isNone →
      50000000 ≤ (backfillRevenues rand revs k).getD i 0 ∧
      (backfillRevenues rand revs k).getD i 0 < 1500000000) ∧
    (∀ v, revs.getD i none = some v →
      (backfillRevenues rand revs k).getD i 0 = v) ∧
    (∀ v : ℕ, 50000000 ≤ v → v < 1500000000 →
      ∃! r, r < 1450000000 ∧ npRandint 50000000 1500000000 r = v) := by
  refine ⟨?_, ?_, fun v h1 h2 => npRandint_uniform v h1 h2⟩
  · induction revs generalizing k i with
    | nil => cases hlen
    | cons o rest ih =>
      cases i with
      | zero =>
        cases o with
        | none =>
          intro _
          have hbf : backfillRevenues rand (none :: rest) k =
              ((npRandint 50000000 1500000000 (rand k) : ℕ) : ℚ) ::
                backfillRevenues rand rest (k + 1) := rfl
          rw [hbf, List.getD_cons_zero]
          have h1 : 50000000 ≤ npRandint 50000000 1500000000 (rand k) := by
            unfold npRandint
            omega
          have h2 : npRandint 50000000 1500000000 (rand k) < 1500000000 := by
            unfold npRandint
            omega
          exact ⟨by exact_mod_cast h1, by exact_mod_cast h2⟩
        | some v =>
          intro habs
          simp at habs
      | succ i' =>
        have hrevs : (o :: rest).getD (i' + 1) none = rest.getD i' none :=
          List.getD_cons_succ
        cases o with
        | none =>
          have hbf : backfillRevenues rand (none :: rest) k =
              ((npRandint 50000000 1500000000 (rand k) : ℕ) : ℚ) ::
                backfillRevenues rand rest (k + 1) := rfl
          rw [hrevs, hbf, List.getD_cons_succ]
          exact ih (k + 1) i' (by simpa using hlen)
        | some v =>
          have hbf : backfillRevenues rand (some v :: rest) k =
              v :: backfillRevenues rand rest k := rfl
          rw [hrevs, hbf, List.getD_cons_succ]
          exact ih k i' (by simpa using hlen)
  · induction revs generalizing k i with
    | nil => cases hlen
    | cons o rest ih =>
      cases i with
      | zero =>
        cases o with
        | none =>
          intro v hv
          simp at hv
        | some w =>
          intro v hv
          rw [List.getD_cons_zero] at hv
          have hbf : backfillRevenues rand (some w :: rest) k =
              w :: backfillRevenues rand rest k := rfl
          rw [hbf, List.getD_cons_zero]
          exact Option.some.inj hv
      | succ i' =>
        have hrevs : (o :: rest).getD (i' + 1) none = rest.getD i' none :=
          List.getD_cons_succ
        cases o with
        | none =>
          intro v hv
          have hbf : backfillRevenues rand (none :: rest) k =
              ((npRandint 50000000 1500000000 (rand k) : ℕ) : ℚ) ::
                backfillRevenues rand rest (k + 1) := rfl
          rw [hrevs] at hv
          rw [hbf, List.getD_cons_succ]
          exact ih (k + 1) i' (by simpa using hlen) v hv
        | some w =>
          intro v hv
          have hbf : backfillRevenues rand (some w :: rest) k =
              w :: backfillRevenues rand rest k := rfl
          rw [hrevs] at hv
          rw [hbf, List.getD_cons_succ]
          exact ih k i' (by simpa using hlen) v hv

/-- Witness for `backfill_missing_revenue`. -/
theorem backfill_missing_revenue_witness :
    50000000 ≤ (backfillRevenues (fun _ => 7) [none] 0).getD 0 0 ∧
      (backfillRevenues (fun _ => 7) [none] 0).getD 0 0 < 1500000000 :=
  (backfill_missing_revenue (fun _ => 7) [none] 0 0 (by norm_num)).1 (by rfl)

/-! ## Claim C8: null/empty company name short-circuits the extractor -/

/-- C8: for a null or empty company name, the revenue extractor returns
`{None, "Low"}` and performs zero search-gateway calls (the second
component of `getCompanyRevenue` counts the gateway calls). -/
theorem revenue_null_company (search : String → ℕ → List SearchResult)
    (company : Option String) (h : company = none ∨ company = some "") :
    getCompanyRevenue search company = (⟨none, "Low"⟩, 0) := by
  rcases h with h | h <;> subst h <;> rfl

/-- Witness for `revenue_null_company`. -/
theorem revenue_null_company_witness :
    getCompanyRevenue (fun _ _ => []) none = (⟨none, "Low"⟩, 0) :=
  revenue_null_company (fun _ _ => []) none (Or.inl rfl)

/-! ## Claim C9: the search gateway never propagates an exception -/

/-- C9: for every credential and provider behaviour the gateway returns
normally (`.ok`), and it returns the empty result list when the credential
is missing/placeholder, when the provider raises, and when the provider
reports an error. -/
theorem gateway_never_throws (key : Option String) (p : ProviderOutcome) :
    (∃ rs, get_serpapi_search_results key p = .ok rs) ∧
    (pyTruthy key = false ∨ strContains (key.getD "") "your_api_key_here" = true →
      get_serpapi_search_results key p = .ok []) ∧
    (∀ m, p = .throws m → get_serpapi_search_results key p = .ok []) ∧
    (∀ d, p = .returns d → d.error.isSome = true →
      get_serpapi_search_results key p = .ok []) := by
  refine ⟨?_, ?_, ?_, ?_⟩
  · unfold get_serpapi_search_results
    split
    · exact ⟨[], rfl⟩
    · cases p with
      | throws m => exact ⟨[], rfl⟩
      | returns d =>
        by_cases he : d.error.isSome = true
        · exact ⟨[], by simp [he]⟩
        · exact ⟨d.organic_results.getD [], by
            simp only [Bool.not_eq_true] at he
            simp [he]⟩
  · intro h
    unfold get_serpapi_search_results
    have hcond : (!pyTruthy key || strContains (key.getD "") "your_api_key_here") = true := by
      rcases h with h | h <;> simp [h]
    rw [if_pos hcond]
  · rintro m rfl
    unfold get_serpapi_search_results
    split
    · rfl
    · rfl
  · rintro d rfl he
    unfold get_serpapi_search_results
    split
    · rfl
    · simp [he]

/-- Witness for `gateway_never_throws`. -/
theorem gateway_never_throws_witness :
    get_serpapi_search_results none (.throws "boom") = .ok [] :=
  (gateway_never_throws none (.throws "boom")).2.2.1 "boom" rfl

/-! ## Claim C7: manual-override lookup -/

theorem lookupManualGo_eq_find (name company : String) :
    ∀ l : List ((String × String) × String),
      lookupManualGo name company l =
        (l.find? (fun e => strLower e.1.1 == strLower name &&
          strLower e.1.2 == strLower company)).map Prod.snd := by
  intro l
  induction l with
  | nil => rfl
  | cons e rest ih =>
    obtain ⟨⟨mn, mc⟩, d⟩ := e
    rw [List.find?_cons]
    by_cases h : strLower mn = strLower name ∧ strLower mc = strLower company
    · have hb : (strLower mn == strLower name &&
          strLower mc == strLower company) = true := by
        simp [h.1, h.2]
      rw [lookupManualGo, if_pos h]
      simp only [hb]
      rfl
    · have hb : (strLower mn == strLower name &&
          strLower mc == strLower company) = false := by
        rcases not_and_or.1 h with h1 | h1 <;> simp [h1]
      rw [lookupManualGo, if_neg h]
      simp only [hb]
      exact ih

/-- C7: when no extracted candidate survives (the extracted designation is
`none`), the final designation is exactly the result of a case-insensitive
first-match lookup of the (name, company) pair in `MANUAL_DESIGNATIONS`,
returning the stored string verbatim; in particular "Andy Wong" at "Meta"
with no extractable candidate (a gateway returning no results) yields
designation "Engineering" through the whole `enrich` pipeline. -/
theorem manual_override_lookup (name company : String) :
    determineDesignation none name company =
      (MANUAL_DESIGNATIONS.find? (fun e => strLower e.1.1 == strLower name &&
        strLower e.1.2 == strLower company)).map Prod.snd ∧
    (enrich (fun _ _ => []) (some "Andy Wong") (some "Meta")).designation =
      some "Engineering" := by
  constructor
  · have h1 : determineDesignation none name company =
        lookupManual name company := by
      unfold determineDesignation
      rw [if_neg (by simp [pyTruthy])]
      cases h : lookupManual name company <;> simp [h]
    rw [h1]
    exact lookupManualGo_eq_find name company MANUAL_DESIGNATIONS
  · rfl

/-! ## Claim C6: the work-email guess -/

/-- C6 counterexample, refuting both halves of the claim's condition.
Host resolution: the claim strips a LEADING `"www."`, but the code removes
every occurrence of the substring, so for the top result link
`"https://acme.www.com/x"` and name `"Jane Doe"` the code produces
`"jane.doe@acme.com"` whereas the claim requires
`"jane.doe@" ++ specResolvedHost _ = "jane.doe@acme.www.com"`.
Name condition: the claim requires at least two space-separated tokens for
a non-null guess, but the code tests `len(name.split(' ')) > 1` on raw
fields, so the name `"Jane "` — a single space-separated token, fields
`["Jane", ""]` — still gets the non-null guess `"jane.@acme.com"` with an
empty last field. -/
theorem email_guess_counterexample :
    (guessWorkEmail [⟨"", "", some "https://acme.www.com/x"⟩] "Jane Doe" =
        some "jane.doe@acme.com" ∧
      specResolvedHost "https://acme.www.com/x" = "acme.www.com" ∧
      guessWorkEmail [⟨"", "", some "https://acme.www.com/x"⟩] "Jane Doe" ≠
        some ("jane.doe@" ++ specResolvedHost "https://acme.www.com/x")) ∧
    (specSpaceTokens "Jane " = ["Jane"] ∧
      (specSpaceTokens "Jane ").length < 2 ∧
      strReplace (urlNetloc "http://acme.com/") "www." "" = "acme.com" ∧
      guessWorkEmail [⟨"", "", some "http://acme.com/"⟩] "Jane " =
        some "jane.@acme.com") := by
  exact ⟨⟨by decide, by decide, by decide⟩,
    by decide, by decide, by decide, by decide⟩

/-- C6 (amended): the email guess is non-null exactly when the top
domain-search result exists, carries a link, its network host with EVERY
occurrence of `"www."` removed is non-empty, and the name split on single
spaces has more than one field; in that case the guess is
`<firstField>.<lastField>@<host>` with both fields lower-cased. -/
theorem email_guess_amended (results : List SearchResult) (name : String) :
    ((guessWorkEmail results name).isSome ↔
      ∃ r rest url, results = r :: rest ∧ r.link = some url ∧
        strReplace (urlNetloc url) "www." "" ≠ "" ∧
        1 < (pySplitSpace name).length) ∧
    (∀ r rest url, results = r :: rest → r.link = some url →
      strReplace (urlNetloc url) "www." "" ≠ "" →
      1 < (pySplitSpace name).length →
      guessWorkEmail results name =
        some (strLower ((pySplitSpace name).headD "") ++ "." ++
          strLower ((pySplitSpace name).getLastD "") ++ "@" ++
          strReplace (urlNetloc url) "www." "")) := by
  constructor
  · cases results with
    | nil =>
      simp [guessWorkEmail]
    | cons r rest =>
      cases hl : r.link with
      | none =>
        simp only [guessWorkEmail, hl]
        constructor
        · intro h
          cases h
        · rintro ⟨r', rest', url', hcons, hlink, -, -⟩
          injection hcons with h1 h2
          subst h1
          rw [hl] at hlink
          cases hlink
      | some url =>
        simp only [guessWorkEmail, hl]
        by_cases hc : strReplace (urlNetloc url) "www." "" ≠ "" ∧
            1 < (pySplitSpace name).length
        · rw [if_pos hc]
          simp only [Option.isSome_some, true_iff]
          exact ⟨r, rest, url, rfl, hl, hc.1, hc.2⟩
        · rw [if_neg hc]
          constructor
          · intro h
            exact absurd h (by simp)
          · rintro ⟨r', rest', url', hcons, hlink, hne, hlen⟩
            injection hcons with h1 h2
            subst h1
            rw [hl] at hlink
            injection hlink with hlink
            subst hlink
            exact absurd ⟨hne, hlen⟩ hc
  · rintro r rest url rfl hlink hne hlen
    simp only [guessWorkEmail, hlink]
    rw [if_pos ⟨hne, hlen⟩]

/-- Witness for `email_guess_amended`. -/
theorem email_guess_amended_witness :
    guessWorkEmail [⟨"", "", some "http://www.acme.com/about"⟩] "Jane Doe" =
      some (strLower ((pySplitSpace "Jane Doe").headD "") ++ "." ++
        strLower ((pySplitSpace "Jane Doe").getLastD "") ++ "@" ++
        strReplace (urlNetloc "http://www.acme.com/about") "www." "") :=
  (email_guess_amended [⟨"", "", some "http://www.acme.com/about"⟩]
    "Jane Doe").2 ⟨"", "", some "http://www.acme.com/about"⟩ []
    "http://www.acme.com/about" rfl rfl (by decide) (by decide)

/-! ## Claim C1: revenue extraction over the snippet sequence -/

theorem snippetRevenue_empty : snippetRevenue "" = none := rfl

theorem snippetRevenue_some_unfold (s : String) (v : ℚ)
    (h : snippetRevenue s = some v) :
    ∃ mstr m, findRevMatch s = some mstr ∧
      pyFloatDigits (filterNumChars (cleanValue mstr)) = some m ∧
      v = m * magScale (cleanValue mstr) ∧ 0 < v := by
  unfold snippetRevenue at h
  cases hm : findRevMatch s with
  | none =>
    rw [hm] at h
    cases h
  | some mstr =>
    rw [hm] at h
    dsimp only at h
    cases hp : pyFloatDigits (filterNumChars (cleanValue mstr)) with
    | none =>
      rw [hp] at h
      cases h
    | some m =>
      rw [hp] at h
      dsimp only at h
      split_ifs at h with hpos
      injection h with h
      exact ⟨mstr, m, rfl, hp, h.symm, h ▸ hpos⟩

theorem scan_characterization (rs : List SearchResult) :
    ((scanResults rs).usd = none → (scanResults rs).confidence = "Low" ∧
      ∀ j, j < rs.length →
        snippetRevenue (rs.getD j noResult).snippet = none) ∧
    (∀ v, (scanResults rs).usd = some v →
      (scanResults rs).confidence = "Medium" ∧
      ∃ i, i < rs.length ∧
        (∀ j, j < i → snippetRevenue (rs.getD j noResult).snippet = none) ∧
        snippetRevenue ((rs.getD i noResult).snippet) = some v) := by
  induction rs with
  | nil =>
    constructor
    · intro _
      exact ⟨rfl, fun j hj => absurd hj (Nat.not_lt_zero j)⟩
    · intro v hv
      cases hv
  | cons r rest ih =>
    by_cases hemp : r.snippet = ""
    · have hscan : scanResults (r :: rest) = scanResults rest := by
        simp only [scanResults]
        rw [hemp]
        simp
      have hzero : snippetRevenue ((r :: rest).getD 0 noResult).snippet = none := by
        rw [List.getD_cons_zero, hemp]
        exact snippetRevenue_empty
      constructor
      · intro h
        rw [hscan] at h
        obtain ⟨hc, hall⟩ := ih.1 h
        refine ⟨by rw [hscan]; exact hc, ?_⟩
        intro j hj
        cases j with
        | zero => exact hzero
        | succ j' =>
          rw [List.getD_cons_succ]
          exact hall j' (by simpa using hj)
      · intro v hv
        rw [hscan] at hv
        obtain ⟨hc, i, hi, hearlier, hval⟩ := ih.2 v hv
        refine ⟨by rw [hscan]; exact hc, i + 1, by simpa using hi, ?_, ?_⟩
        · intro j hj
          cases j with
          | zero => exact hzero
          | succ j' =>
            rw [List.getD_cons_succ]
            exact hearlier j' (by omega)
        · rw [List.getD_cons_succ]
          exact hval
    · cases hsv : snippetRevenue r.snippet with
      | some v0 =>
        have hscan : scanResults (r :: rest) = ⟨some v0, "Medium"⟩ := by
          simp only [scanResults]
          rw [if_neg hemp, hsv]
        constructor
        · intro h
          rw [hscan] at h
          cases h
        · intro v hv
          rw [hscan] at hv
          injection hv with hv
          subst hv
          refine ⟨by rw [hscan], 0, by simp,
            fun j hj => absurd hj (Nat.not_lt_zero j), ?_⟩
          rw [List.getD_cons_zero]
          exact hsv
      | none =>
        have hscan : scanResults (r :: rest) = scanResults rest := by
          simp only [scanResults]
          rw [if_neg hemp, hsv]
        have hzero : snippetRevenue ((r :: rest).getD 0 noResult).snippet = none := by
          rw [List.getD_cons_zero]
          exact hsv
        constructor
        · intro h
          rw [hscan] at h
          obtain ⟨hc, hall⟩ := ih.1 h
          refine ⟨by rw [hscan]; exact hc, ?_⟩
          intro j hj
          cases j with
          | zero => exact hzero
          | succ j' =>
            rw [List.getD_cons_succ]
            exact hall j' (by simpa using hj)
        · intro v hv
          rw [hscan] at hv
          obtain ⟨hc, i, hi, hearlier, hval⟩ := ih.2 v hv
          refine ⟨by rw [hscan]; exact hc, i + 1, by simpa using hi, ?_, ?_⟩
          · intro j hj
            cases j with
            | zero => exact hzero
            | succ j' =>
              rw [List.getD_cons_succ]
              exact hearlier j' (by omega)
          · rw [List.getD_cons_succ]
            exact hval

/-- C1: for every non-empty company name and every gateway behaviour, the
extractor's result is determined by the first snippet (in gateway return
order) whose first regex match parses to a positive value `m × scale`:
that value is returned with confidence "Medium" and all earlier snippets
yielded nothing; with no such snippet the result is `{None, "Low"}`.
A match whose mantissa fails to parse or whose value is ≤ 0 counts as
no-match for its snippet (`snippetRevenue _ = none`). -/
theorem revenue_extraction (search : String → ℕ → List SearchResult)
    (c : String) (hc : c ≠ "") :
    ((getCompanyRevenue search (some c)).1.usd = none →
      (getCompanyRevenue search (some c)).1.confidence = "Low" ∧
      ∀ j, j < (search (revQuery c) 5).length →
        snippetRevenue ((search (revQuery c) 5).getD j noResult).snippet = none) ∧
    (∀ v, (getCompanyRevenue search (some c)).1.usd = some v →
      (getCompanyRevenue search (some c)).1.confidence = "Medium" ∧
      ∃ i, i < (search (revQuery c) 5).length ∧
        (∀ j, j < i →
          snippetRevenue ((search (revQuery c) 5).getD j noResult).snippet = none) ∧
        ∃ mstr m,
          findRevMatch ((search (revQuery c) 5).getD i noResult).snippet = some mstr ∧
          pyFloatDigits (filterNumChars (cleanValue mstr)) = some m ∧
          v = m * magScale (cleanValue mstr) ∧ 0 < v) := by
  have hgc : getCompanyRevenue search (some c) =
      (scanResults (search (revQuery c) 5), 1) := by
    unfold getCompanyRevenue
    have ht : pyTruthy (some c) = true := by simp [pyTruthy, hc]
    rw [ht]
    rfl
  rw [hgc]
  constructor
  · exact (scan_characterization (search (revQuery c) 5)).1
  · intro v hv
    obtain ⟨hconf, i, hi, hearlier, hval⟩ :=
      (scan_characterization (search (revQuery c) 5)).2 v hv
    exact ⟨hconf, i, hi, hearlier, snippetRevenue_some_unfold _ _ hval⟩

/-- Witness for `revenue_extraction`. -/
theorem revenue_extraction_witness :
    "Acme" ≠ "" ∧
    ((getCompanyRevenue stubSearchNoRevenue (some "Acme")).1.confidence = "Low" ∧
      ∀ j, j < (stubSearchNoRevenue (revQuery "Acme") 5).length →
        snippetRevenue
          ((stubSearchNoRevenue (revQuery "Acme") 5).getD j noResult).snippet =
          none) :=
  ⟨by decide,
    (revenue_extraction stubSearchNoRevenue "Acme" (by decide)).1 (by decide)⟩

/-! ## Claim C2: deterministic first-argmax candidate selection -/

theorem genCandidates_scores (name company title snippet : String) :
    ∀ c ∈ genCandidates name company title snippet,
      c.2 = 100 ∨ c.2 = 80 ∨ c.2 = 60 ∨ c.2 = 40 := by
  intro c hc
  unfold genCandidates at hc
  simp only [List.mem_append] at hc
  rcases hc with ((h1 | h2) | h3) | h4
  · obtain ⟨g, -, hg⟩ := List.mem_map.1 h1
    rw [← hg]
    simp
  · obtain ⟨g, -, hg⟩ := List.mem_map.1 h2
    rw [← hg]
    simp
  · cases hp : p3Search name.toList (title ++ " | " ++ snippet).toList with
    | none =>
      rw [hp] at h3
      cases h3
    | some g =>
      rw [hp] at h3
      rcases List.mem_singleton.1 h3 with rfl
      simp
  · cases hp : p4Search snippet.toList with
    | none =>
      rw [hp] at h4
      cases h4
    | some g =>
      rw [hp] at h4
      rcases List.mem_singleton.1 h4 with rfl
      simp

/-- C2: for every fixed name, company, title and snippet text, the scoring
loop selects exactly the first-seen candidate of maximal adjusted score
among the surviving (cleaned and validated) candidates, where candidates
are listed in pattern order 1, 2, 3, 4 and in text order within a pattern,
and the adjusted score is the base score plus the +20 job-keyword bonus
(`adjustScore`).  Selection is thus a pure function of the inputs, so
repeated runs on the same text pick the identical candidate. -/
theorem designation_selection (name company title snippet : String) :
    selectBest name (mkIgnoreKeywords name company)
        (genCandidates name company title snippet) =
      firstArgmax (survivingCandidates name (mkIgnoreKeywords name company)
        (genCandidates name company title snippet)) := by
  apply selectBest_eq_firstArgmax_of_nonneg
  intro s hs
  obtain ⟨c, hc, h1, h2, h3⟩ := surviving_mem _ _ _ s hs
  have hbase := genCandidates_scores name company title snippet c hc
  rw [h3]
  unfold adjustScore
  split_ifs <;> rcases hbase with h | h | h | h <;> omega

/-! ## Claim C3: candidates matching the company or person name are rejected -/

/-- C3: a cleaned candidate equal (case-insensitively) to the company name,
or containing a word of length > 2 of the person's own name, fails
validation whatever its pattern and base score, and therefore can never be
the designation selected from the candidate list. -/
theorem name_company_rejection (name company : String)
    (cands : List (String × ℤ)) :
    (∀ c ∈ cands,
      (strLower (cleanCandidate name c.1) = strLower company ∨
        ∃ w ∈ nameTokens name,
          strContains (strLower (cleanCandidate name c.1)) w = true) →
      passesValidation (mkIgnoreKeywords name company)
        (cleanCandidate name c.1) = false) ∧
    (∀ d, selectBest name (mkIgnoreKeywords name company) cands = some d →
      strLower d ≠ strLower company ∧
      ∀ w ∈ nameTokens name, strContains (strLower d) w = false) := by
  have hmem_company : strLower company ∈ mkIgnoreKeywords name company := by
    unfold mkIgnoreKeywords
    simp
  have hmem_tok : ∀ w ∈ nameTokens name, w ∈ mkIgnoreKeywords name company := by
    intro w hw
    unfold mkIgnoreKeywords
    simp [hw]
  constructor
  · intro c hc hbad
    set cl := cleanCandidate name c.1 with hcl
    have hany : (mkIgnoreKeywords name company).any
        (fun kw => strContains (strLower cl) kw) = true := by
      rcases hbad with heq | ⟨w, hw, hcont⟩
      · refine List.any_eq_true.2 ⟨strLower company, hmem_company, ?_⟩
        rw [← heq]
        exact strContains_self (strLower cl)
      · exact List.any_eq_true.2 ⟨w, hmem_tok w hw, hcont⟩
    unfold passesValidation
    rw [hany]
    simp
  · intro d hsel
    have hval := selectBest_valid name (mkIgnoreKeywords name company) cands d hsel
    unfold passesValidation at hval
    simp only [Bool.and_eq_true, Bool.not_eq_true'] at hval
    have hnokw : ∀ kw ∈ mkIgnoreKeywords name company,
        strContains (strLower d) kw = false := by
      intro kw hkw
      have := List.any_eq_false.1 hval.2 kw hkw
      simpa using this
    constructor
    · intro heq
      have hcont : strContains (strLower d) (strLower company) = true := by
        rw [heq]
        exact strContains_self (strLower company)
      rw [hnokw (strLower company) hmem_company] at hcont
      cases hcont
    · intro w hw
      exact hnokw w (hmem_tok w hw)

/-- Witness for `name_company_rejection`. -/
theorem name_company_rejection_witness :
    selectBest "John Smith" (mkIgnoreKeywords "John Smith" "Acme")
        [("Senior Engineer", 100)] = some "Senior Engineer" ∧
    strLower "Senior Engineer" ≠ strLower "Acme" :=
  ⟨by decide,
    ((name_company_rejection "John Smith" "Acme"
      [("Senior Engineer", 100)]).2 "Senior Engineer" (by decide)).1⟩

/-! ## Claim C10: confidence label tracks the LinkedIn URL -/

theorem profileStep_link_nonempty (results : List SearchResult) (n c : String)
    (lk : String) (h : (profileStep results n c).1 = some lk) : lk ≠ "" := by
  unfold profileStep at h
  cases results with
  | nil => cases h
  | cons top rest =>
    dsimp only at h
    split_ifs at h with hmark
    injection h with h
    subst h
    intro hemp
    rw [hemp] at hmark
    exact absurd hmark (by decide)

/-- C10: for every input, the enrichment result's confidence is "Medium"
exactly when its LinkedIn URL is non-null and "Low" otherwise; in
particular a contact whose designation comes only from the manual-override
table and whose work email was successfully guessed, with no discovered
profile URL, still gets confidence "Low". -/
theorem confidence_matches_linkedin (search : String → ℕ → List SearchResult)
    (name company : Option String) :
    ((enrich search name company).confidence = "Medium" ↔
      (enrich search name company).linkedin_url ≠ none) ∧
    ((enrich search name company).linkedin_url = none →
      (enrich search name company).confidence = "Low") ∧
    enrich stubSearchMeta (some "Andy Wong") (some "Meta") =
      ⟨none, some "Engineering", some "andy.wong@meta.com", "SerpApi", "Low"⟩ := by
  refine ⟨?_, ?_, by decide⟩
  · unfold enrich
    by_cases hguard : (!pyTruthy name || !pyTruthy company) = true
    · rw [if_pos hguard]
      simp
    · rw [if_neg hguard]
      cases hstep : (profileStep
          (profileResults search (name.getD "") (company.getD ""))
          (name.getD "") (company.getD "")).1 with
      | none => simp [pyTruthy]
      | some lk =>
        have hlk := profileStep_link_nonempty
          (profileResults search (name.getD "") (company.getD ""))
          (name.getD "") (company.getD "") lk hstep
        simp [pyTruthy, hlk]
  · unfold enrich
    by_cases hguard : (!pyTruthy name || !pyTruthy company) = true
    · rw [if_pos hguard]
      simp
    · rw [if_neg hguard]
      cases hstep : (profileStep
          (profileResults search (name.getD "") (company.getD ""))
          (name.getD "") (company.getD "")).1 with
      | none => simp [pyTruthy]
      | some lk => simp [pyTruthy]

/-- Witness for `confidence_matches_linkedin`. -/
theorem confidence_matches_linkedin_witness :
    (enrich stubSearchMeta (some "Andy Wong") (some "Meta")).confidence =
      "Low" :=
  (confidence_matches_linkedin stubSearchMeta (some "Andy Wong")
    (some "Meta")).2.1 (by decide)
